import Mathlib

/-!
Shallow embedding of bgzfiltra (src/src/bgzfiltra/main.py): a monitoring job
that fetches bugzilla bug records per product, aggregates counts
(status, component, L3 escalations, L3 sub-events, priority buckets,
open load per assignee) and persists each count with a timestamp.

Records are modelled as structures of the fields the core reads; the
grouping dictionaries of the Python code (insertion-ordered dicts) are
modelled as association lists in insertion order; `str.count` and the
`in` substring operator are modelled character-list recursions with the
same semantics.
-/

namespace Bgzfiltra

/-- A bugzilla flag object: the code reads it as a mapping via
`flag.get("name", "")` (main.py line 75), so it is modelled as an
association list of string keys to string values. -/
abbrev Flag := List (String × String)

/-- Python `d.get(key, dflt)` on a flag mapping. -/
def flagGet (flag : Flag) (key dflt : String) : String :=
  match List.lookup key flag with
  | some v => v
  | none => dflt

/-- A bug record, with exactly the attributes the core reads
(main.py: assigned_to, component, status, priority, whiteboard, flags;
id is carried but unused by the core). -/
structure Bug where
  id : String
  status : String
  component : String
  assigned_to : String
  priority : String
  whiteboard : String
  flags : List Flag
deriving DecidableEq, Repr

/-- One step of the grouping loop body (main.py lines 29-32): append
the bug to the bucket of its key if present, otherwise create the
bucket at the end (Python dicts iterate in key-insertion order). -/
def insertGrouped (k : String) (b : Bug) : List (String × List Bug) → List (String × List Bug)
  | [] => [(k, [b])]
  | (k', l) :: rest =>
      if k' = k then (k', l ++ [b]) :: rest
      else (k', l) :: insertGrouped k b rest

/-- The grouping loop over the whole bug list, with explicit
accumulator (the `grouped_bugs` dict). -/
def groupFold (key : Bug → String) : List (String × List Bug) → List Bug → List (String × List Bug)
  | g, [] => g
  | g, b :: rest => groupFold key (insertGrouped (key b) b g) rest

/-- Translation of group_bugs_by_assignee (main.py lines 22-33). -/
def group_bugs_by_assignee (bugs : List Bug) : List (String × List Bug) :=
  groupFold (fun b => b.assigned_to) [] bugs

/-- Translation of group_bugs_by_component (main.py lines 36-47). -/
def group_bugs_by_component (bugs : List Bug) : List (String × List Bug) :=
  groupFold (fun b => b.component) [] bugs

/-- Translation of group_bugs_by_status (main.py lines 50-61). -/
def group_bugs_by_status (bugs : List Bug) : List (String × List Bug) :=
  groupFold (fun b => b.status) [] bugs

/-- Python substring membership `needle in hay` on character lists:
true iff some suffix of the haystack starts with the needle. -/
def containsTok (needle : List Char) : List Char → Bool
  | [] => List.isPrefixOf needle []
  | c :: rest => List.isPrefixOf needle (c :: rest) || containsTok needle rest

/-- Python `sub in s` for strings. -/
def strContains (s sub : String) : Bool :=
  containsTok sub.data s.data

/-- Scanner for Python `s.count(sub)` with a nonempty sub:
non-overlapping occurrences scanned left to right; after a match the
scan resumes right after the matched block, realised by skipping the
remaining `sub.length - 1` characters without testing. -/
def countTokAux (needle : List Char) : List Char → Nat → Nat
  | [], _ => 0
  | c :: rest, skip =>
      if 0 < skip then countTokAux needle rest (skip - 1)
      else if List.isPrefixOf needle (c :: rest) then
        1 + countTokAux needle rest (needle.length - 1)
      else countTokAux needle rest 0

/-- Python `s.count(sub)` for a nonempty sub on character lists. -/
def countTok (needle hay : List Char) : Nat :=
  countTokAux needle hay 0

/-- Python `s.count(sub)` for strings (on the empty sub Python returns
`len(s) + 1`). -/
def strCount (s sub : String) : Nat :=
  if sub.data = [] then s.data.length + 1 else countTok sub.data s.data

/-- Translation of is_l3 (main.py lines 64-68): whiteboard contains
"wasL3:" or contains "openL3:". -/
def is_l3 (bug : Bug) : Bool :=
  strContains bug.whiteboard "wasL3:" || strContains bug.whiteboard "openL3:"

/-- Translation of has_needinfo (main.py lines 71-75):
any flag with `flag.get("name", "") == "needinfo"`. -/
def has_needinfo (bug : Bug) : Bool :=
  bug.flags.any (fun flag => flagGet flag "name" "" == "needinfo")

/-- The persistence dimensions of the six insert calls of the cycle
body (insert_status, insert_component, insert_l3, insert_l3_cases,
insert_priority, insert_assigned). -/
inductive Dim where
  | status
  | component
  | l3_status
  | l3_cases
  | priority
  | assignee_open
deriving DecidableEq, Repr

/-- One metric emission of the aggregation: dimension, bucket key and
count, as handed to the persistence insert call. -/
structure Emission where
  dim : Dim
  key : String
  count : Nat
deriving DecidableEq, Repr

/-- The escalation subset (main.py line 95):
`[bug for bug in bugzilla_bugs if is_l3(bug)]`. -/
def bugzilla_l3s (bugs : List Bug) : List Bug :=
  bugs.filter (fun b => is_l3 b)

/-- The L3-cases loop (main.py lines 113-116): running pair of the
"open" and "closed" totals, adding each whiteboard's occurrence counts
of "openL3:" and "wasL3:". -/
def l3CasesStep (acc : Nat × Nat) (l3 : Bug) : Nat × Nat :=
  (acc.1 + strCount l3.whiteboard "openL3:", acc.2 + strCount l3.whiteboard "wasL3:")

/-- The L3-cases totals over the escalation subset, starting from
`{"open": 0, "closed": 0}`. -/
def l3CasesTotals (l3s : List Bug) : Nat × Nat :=
  l3s.foldl l3CasesStep (0, 0)

/-- The priority bucket key of a bug (main.py line 123):
`bug.priority[:2].lower()`. -/
def prioKey (bug : Bug) : String :=
  String.mk ((bug.priority.data.take 2).map Char.toLower)

/-- One step of the priority loop (main.py lines 122-125): increment
the bucket if the key is one of the dict's keys p1, p2, p3, else leave
the counts unchanged. -/
def prioStep (acc : Nat × Nat × Nat) (bug : Bug) : Nat × Nat × Nat :=
  let prio := prioKey bug
  if prio = "p1" then (acc.1 + 1, acc.2.1, acc.2.2)
  else if prio = "p2" then (acc.1, acc.2.1 + 1, acc.2.2)
  else if prio = "p3" then (acc.1, acc.2.1, acc.2.2 + 1)
  else acc

/-- The priority totals, starting from `{"p1": 0, "p2": 0, "p3": 0}`. -/
def prioTotals (bugs : List Bug) : Nat × Nat × Nat :=
  bugs.foldl prioStep (0, 0, 0)

/-- The open subset (main.py line 130):
`[bug for bug in bugzilla_bugs if bug.status != "RESOLVED"]`. -/
def open_bugs (bugs : List Bug) : List Bug :=
  bugs.filter (fun b => !(b.status == "RESOLVED"))

/-- Status emissions (main.py lines 98-100). -/
def statusEmissions (bugs : List Bug) : List Emission :=
  (group_bugs_by_status bugs).map (fun p => ⟨Dim.status, p.1, p.2.length⟩)

/-- Component emissions (main.py lines 103-105). -/
def componentEmissions (bugs : List Bug) : List Emission :=
  (group_bugs_by_component bugs).map (fun p => ⟨Dim.component, p.1, p.2.length⟩)

/-- L3-by-status emissions (main.py lines 108-110). -/
def l3StatusEmissions (bugs : List Bug) : List Emission :=
  (group_bugs_by_status (bugzilla_l3s bugs)).map (fun p => ⟨Dim.l3_status, p.1, p.2.length⟩)

/-- L3-cases emissions (main.py lines 117-118): always exactly the two
keys "open" and "closed", in this order. -/
def l3CaseEmissions (bugs : List Bug) : List Emission :=
  [⟨Dim.l3_cases, "open", (l3CasesTotals (bugzilla_l3s bugs)).1⟩,
   ⟨Dim.l3_cases, "closed", (l3CasesTotals (bugzilla_l3s bugs)).2⟩]

/-- Priority emissions (main.py lines 126-127): the dict holds exactly
the keys p1, p2, p3 in insertion order, all three always emitted. -/
def priorityEmissions (bugs : List Bug) : List Emission :=
  [⟨Dim.priority, "p1", (prioTotals bugs).1⟩,
   ⟨Dim.priority, "p2", (prioTotals bugs).2.1⟩,
   ⟨Dim.priority, "p3", (prioTotals bugs).2.2⟩]

/-- Open-per-assignee emissions (main.py lines 130-133). -/
def assigneeOpenEmissions (bugs : List Bug) : List Emission :=
  (group_bugs_by_assignee (open_bugs bugs)).map
    (fun p => ⟨Dim.assignee_open, p.1, p.2.length⟩)

/-- The full aggregation for one product's record collection
(main.py lines 95-133), in the order of the insert calls. -/
def aggregateProduct (bugs : List Bug) : List Emission :=
  statusEmissions bugs ++ componentEmissions bugs ++ l3StatusEmissions bugs
    ++ l3CaseEmissions bugs ++ priorityEmissions bugs ++ assigneeOpenEmissions bugs

/-- A metric emission as handed to the store: product, emission and
the wall-clock timestamp it is tagged with. -/
structure TaggedEmission where
  product : String
  em : Emission
  timestamp : Nat
deriving DecidableEq, Repr

/-- The per-product body of the cycle: all aggregation emissions for
the product, tagged with the given timestamp. -/
def runProduct (product : String) (timestamp : Nat) (bugs : List Bug) : List TaggedEmission :=
  (aggregateProduct bugs).map (fun e => ⟨product, e, timestamp⟩)

/-- The driver loop of main (main.py lines 82-138) over a finite list
of cycles, each cycle being the fetched record collections per product
in configured order. `clock i` is the wall-clock instant at the start
of cycle `i` (cycle starts are separated by the inter-cycle sleep).
The source reads the clock exactly once, at line 82 before the
`while True` loop, i.e. at the start of cycle 0; every emission of
every cycle is tagged with that single reading. -/
def mainCycles (clock : Nat → Nat) (fetches : List (List (String × List Bug))) :
    List (List TaggedEmission) :=
  let timestamp := clock 0
  fetches.map (fun cycle =>
    (cycle.map (fun pb => runProduct pb.1 timestamp pb.2)).flatten)

/-! Observation helpers on grouping results. -/

/-- Keys of a grouping result, in insertion order. -/
def keysOf (g : List (String × List Bug)) : List String :=
  g.map Prod.fst

/-- Whether a grouping result holds a bucket for the key. -/
def hasKey : List (String × List Bug) → String → Bool
  | [], _ => false
  | (k', _) :: rest, k => if k' = k then true else hasKey rest k

/-- The bucket of a key in a grouping result ([] when absent). -/
def bucketOf : List (String × List Bug) → String → List Bug
  | [], _ => []
  | (k', l) :: rest, k => if k' = k then l else bucketOf rest k

/-- The total number of records across all buckets. -/
def sumLens (g : List (String × List Bug)) : Nat :=
  (g.map (fun p => p.2.length)).sum

theorem hasKey_iff_mem_keysOf (g : List (String × List Bug)) (k : String) :
    hasKey g k = true ↔ k ∈ keysOf g := by
  induction g with
  | nil => simp [hasKey, keysOf]
  | cons p rest ih =>
      obtain ⟨k', l⟩ := p
      by_cases h : k' = k
      · subst h
        simp [hasKey, keysOf]
      · simp [hasKey, keysOf, h, Ne.symm h] at ih ⊢
        simpa [keysOf] using ih

theorem bucketOf_insertGrouped (g : List (String × List Bug)) (k q : String) (b : Bug) :
    bucketOf (insertGrouped k b g) q =
      if k = q then bucketOf g q ++ [b] else bucketOf g q := by
  induction g with
  | nil =>
      by_cases h : k = q <;> simp [insertGrouped, bucketOf, h]
  | cons p rest ih =>
      obtain ⟨k', l⟩ := p
      by_cases hk : k' = k
      · subst hk
        by_cases hq : k' = q
        · subst hq
          simp [insertGrouped, bucketOf]
        · simp [insertGrouped, bucketOf, hq]
      · by_cases hq : k' = q
        · subst hq
          have hkq : k ≠ k' := fun h => hk h.symm
          simp [insertGrouped, bucketOf, hk, hkq]
        · simp [insertGrouped, bucketOf, hk, hq, ih]

theorem hasKey_insertGrouped (g : List (String × List Bug)) (k q : String) (b : Bug) :
    hasKey (insertGrouped k b g) q = ((k == q) || hasKey g q) := by
  induction g with
  | nil =>
      by_cases h : k = q <;> simp [insertGrouped, hasKey, h]
  | cons p rest ih =>
      obtain ⟨k', l⟩ := p
      by_cases hk : k' = k
      · subst hk
        by_cases hq : k' = q <;> simp [insertGrouped, hasKey, hq]
      · by_cases hq : k' = q
        · subst hq
          simp [insertGrouped, hasKey, hk]
        · simp [insertGrouped, hasKey, hk, hq, ih]

theorem sumLens_insertGrouped (g : List (String × List Bug)) (k : String) (b : Bug) :
    sumLens (insertGrouped k b g) = sumLens g + 1 := by
  induction g with
  | nil => simp [insertGrouped, sumLens]
  | cons p rest ih =>
      obtain ⟨k', l⟩ := p
      by_cases hk : k' = k
      · subst hk
        simp [insertGrouped, sumLens]
        omega
      · simp [insertGrouped, sumLens, hk] at ih ⊢
        omega

theorem nonempty_insertGrouped (g : List (String × List Bug)) (k : String) (b : Bug)
    (h : ∀ p ∈ g, p.2 ≠ []) : ∀ p ∈ insertGrouped k b g, p.2 ≠ [] := by
  induction g with
  | nil =>
      intro p hp
      simp [insertGrouped] at hp
      subst hp
      simp
  | cons q rest ih =>
      obtain ⟨k', l⟩ := q
      intro p hp
      by_cases hk : k' = k
      · subst hk
        simp [insertGrouped] at hp
        rcases hp with hp | hp
        · subst hp
          simp
        · exact h p (List.mem_cons_of_mem _ hp)
      · simp [insertGrouped, hk] at hp
        rcases hp with hp | hp
        · subst hp
          exact h (k', l) (List.mem_cons_self _ _)
        · exact ih (fun p hp => h p (List.mem_cons_of_mem _ hp)) p hp

theorem keysOf_insertGrouped (g : List (String × List Bug)) (k : String) (b : Bug) :
    keysOf (insertGrouped k b g) =
      if hasKey g k then keysOf g else keysOf g ++ [k] := by
  induction g with
  | nil => simp [insertGrouped, keysOf, hasKey]
  | cons p rest ih =>
      obtain ⟨k', l⟩ := p
      by_cases hk : k' = k
      · subst hk
        simp [insertGrouped, keysOf, hasKey]
      · by_cases hr : hasKey rest k
        · simp [insertGrouped, keysOf, hasKey, hk, hr] at ih ⊢
          exact ih
        · simp [insertGrouped, keysOf, hasKey, hk, hr] at ih ⊢
          exact ih

theorem nodup_keysOf_insertGrouped (g : List (String × List Bug)) (k : String) (b : Bug)
    (h : (keysOf g).Nodup) : (keysOf (insertGrouped k b g)).Nodup := by
  rw [keysOf_insertGrouped]
  by_cases hk : hasKey g k
  · simpa [hk] using h
  · have hnot : k ∉ keysOf g := fun hm => hk ((hasKey_iff_mem_keysOf g k).mpr hm)
    simp [hk]
    simpa [List.nodup_append] using ⟨h, hnot⟩

theorem bucketOf_groupFold (key : Bug → String) (bugs : List Bug)
    (g : List (String × List Bug)) (q : String) :
    bucketOf (groupFold key g bugs) q =
      bucketOf g q ++ bugs.filter (fun b => key b == q) := by
  induction bugs generalizing g with
  | nil => simp [groupFold]
  | cons b rest ih =>
      rw [groupFold, ih, bucketOf_insertGrouped, List.filter_cons]
      by_cases h : key b = q
      · simp [h]
      · simp [h]

theorem hasKey_groupFold (key : Bug → String) (bugs : List Bug)
    (g : List (String × List Bug)) (q : String) :
    hasKey (groupFold key g bugs) q = (hasKey g q || bugs.any (fun b => key b == q)) := by
  induction bugs generalizing g with
  | nil => simp [groupFold]
  | cons b rest ih =>
      rw [groupFold, ih, hasKey_insertGrouped, List.any_cons]
      by_cases h : key b = q
      · simp [h]
      · simp [h, Bool.or_left_comm, Bool.or_assoc]

theorem sumLens_groupFold (key : Bug → String) (bugs : List Bug)
    (g : List (String × List Bug)) :
    sumLens (groupFold key g bugs) = sumLens g + bugs.length := by
  induction bugs generalizing g with
  | nil => simp [groupFold]
  | cons b rest ih =>
      rw [groupFold, ih, sumLens_insertGrouped]
      simp
      omega

theorem nonempty_groupFold (key : Bug → String) (bugs : List Bug)
    (g : List (String × List Bug)) (h : ∀ p ∈ g, p.2 ≠ []) :
    ∀ p ∈ groupFold key g bugs, p.2 ≠ [] := by
  induction bugs generalizing g with
  | nil => simpa [groupFold] using h
  | cons b rest ih =>
      rw [groupFold]
      exact ih _ (nonempty_insertGrouped _ _ _ h)

theorem nodup_keysOf_groupFold (key : Bug → String) (bugs : List Bug)
    (g : List (String × List Bug)) (h : (keysOf g).Nodup) :
    (keysOf (groupFold key g bugs)).Nodup := by
  induction bugs generalizing g with
  | nil => simpa [groupFold] using h
  | cons b rest ih =>
      rw [groupFold]
      exact ih _ (nodup_keysOf_insertGrouped _ _ _ h)

/-- Membership in a grouping result with pairwise distinct keys is
exactly key presence plus bucket agreement. -/
theorem mem_iff_of_nodupKeys (g : List (String × List Bug))
    (h : (keysOf g).Nodup) (k : String) (l : List Bug) :
    (k, l) ∈ g ↔ (hasKey g k = true ∧ bucketOf g k = l) := by
  induction g with
  | nil => simp [hasKey, bucketOf]
  | cons p rest ih =>
      obtain ⟨k', l'⟩ := p
      have hcons : keysOf ((k', l') :: rest) = k' :: keysOf rest := rfl
      rw [hcons, List.nodup_cons] at h
      obtain ⟨hnotin, hrest⟩ := h
      constructor
      · intro hm
        rcases List.mem_cons.mp hm with hm | hm
        · injection hm with h1 h2
          subst h1; subst h2
          simp [hasKey, bucketOf]
        · have hk : k ∈ keysOf rest := by
            exact List.mem_map.mpr ⟨(k, l), hm, rfl⟩
          have hne : k' ≠ k := fun he => hnotin (he ▸ hk)
          have := (ih hrest).mp hm
          simp [hasKey, bucketOf, hne]
          exact this
      · intro ⟨h1, h2⟩
        by_cases hne : k' = k
        · subst hne
          simp [bucketOf] at h2
          subst h2
          exact List.mem_cons_self _ _
        · simp [hasKey, bucketOf, hne] at h1 h2
          exact List.mem_cons_of_mem _ ((ih hrest).mpr ⟨h1, h2⟩)

/-- Correctness package of one grouping function with its key: every
bucket is exactly the sublist of records carrying that key, a bucket
exists exactly for the keys occurring in the input, no bucket is empty,
the keys are pairwise distinct, and the bucket sizes sum to the input
length. -/
def groupingCorrect (group : List Bug → List (String × List Bug)) (key : Bug → String) : Prop :=
  ∀ bugs : List Bug,
    sumLens (group bugs) = bugs.length ∧
    (∀ q, bucketOf (group bugs) q = bugs.filter (fun b => key b == q)) ∧
    (∀ q, hasKey (group bugs) q = bugs.any (fun b => key b == q)) ∧
    (∀ p ∈ group bugs, p.2 ≠ []) ∧
    (keysOf (group bugs)).Nodup

theorem groupingCorrect_groupFold (key : Bug → String) :
    groupingCorrect (fun bugs => groupFold key [] bugs) key := by
  intro bugs
  refine ⟨?_, ?_, ?_, ?_, ?_⟩
  · simpa [sumLens] using sumLens_groupFold key bugs []
  · intro q
    simpa [bucketOf] using bucketOf_groupFold key bugs [] q
  · intro q
    simpa [hasKey] using hasKey_groupFold key bugs [] q
  · exact nonempty_groupFold key bugs [] (by simp)
  · exact nodup_keysOf_groupFold key bugs [] (by simp [keysOf])

/-- The three records of the end-to-end scenario of the design notes,
used as concrete inputs for witnesses. -/
def demoBug1 : Bug :=
  ⟨"1", "NEW", "A", "alice", "P1-High", "openL3: case1", []⟩

def demoBug2 : Bug :=
  ⟨"2", "RESOLVED", "A", "bob", "P2", "", []⟩

def demoBug3 : Bug :=
  ⟨"3", "NEW", "B", "alice", "P1", "wasL3: case2", []⟩

def demoBugs : List Bug := [demoBug1, demoBug2, demoBug3]

/-- C2: for every input list and each grouping dimension (status,
component, assignee), every record appears in exactly one bucket (each
bucket is the filter of the input at its key and keys are pairwise
distinct), the bucket sizes sum to the input length, and a bucket
exists only for keys present in the input (no empty buckets). -/
theorem grouping_partition_correct :
    groupingCorrect group_bugs_by_status (fun b => b.status) ∧
    groupingCorrect group_bugs_by_component (fun b => b.component) ∧
    groupingCorrect group_bugs_by_assignee (fun b => b.assigned_to) :=
  ⟨groupingCorrect_groupFold _, groupingCorrect_groupFold _, groupingCorrect_groupFold _⟩

theorem containsTok_iff (needle hay : List Char) :
    containsTok needle hay = true ↔ needle <:+: hay := by
  induction hay with
  | nil =>
      simp [containsTok, List.isPrefixOf_iff_prefix, List.infix_nil, List.prefix_nil]
  | cons c rest ih =>
      rw [containsTok, Bool.or_eq_true, List.isPrefixOf_iff_prefix, ih,
        List.infix_cons_iff]

/-- C6: is_l3 holds exactly when the whiteboard contains "wasL3:" or
"openL3:" as a substring, and is false on an empty whiteboard; as a
Lean function it is total, so there is no error condition. -/
theorem is_l3_iff_marker_substring (b : Bug) :
    (is_l3 b = true ↔
      ("wasL3:".data <:+: b.whiteboard.data ∨ "openL3:".data <:+: b.whiteboard.data)) ∧
    (b.whiteboard = "" → is_l3 b = false) := by
  constructor
  · simp [is_l3, strContains, containsTok_iff]
  · intro h
    simp only [is_l3, strContains, h]
    decide

theorem is_l3_iff_marker_substring_witness : is_l3 demoBug2 = false :=
  (is_l3_iff_marker_substring demoBug2).2 rfl

theorem l3CasesTotals_eq_sums (l3s : List Bug) (a b : Nat) :
    l3s.foldl l3CasesStep (a, b) =
      (a + (l3s.map (fun x => strCount x.whiteboard "openL3:")).sum,
       b + (l3s.map (fun x => strCount x.whiteboard "wasL3:")).sum) := by
  induction l3s generalizing a b with
  | nil => simp
  | cons x rest ih =>
      rw [List.foldl_cons]
      rw [ih]
      simp [l3CasesStep, Nat.add_assoc]

/-- C3: the two L3-case emissions are always exactly the "open" and
"closed" rows, whose counts are the occurrence counts of "openL3:"
resp. "wasL3:" summed over the whiteboards of the escalation subset;
moreover a whiteboard holding a marker twice contributes 2 (occurrence
count, not record count). -/
theorem l3_case_counts_are_occurrence_sums :
    (∀ bugs : List Bug,
      l3CaseEmissions bugs =
        [⟨Dim.l3_cases, "open",
          ((bugzilla_l3s bugs).map (fun b => strCount b.whiteboard "openL3:")).sum⟩,
         ⟨Dim.l3_cases, "closed",
          ((bugzilla_l3s bugs).map (fun b => strCount b.whiteboard "wasL3:")).sum⟩]) ∧
    strCount "openL3: a openL3: b" "openL3:" = 2 := by
  constructor
  · intro bugs
    rw [l3CaseEmissions, l3CasesTotals, l3CasesTotals_eq_sums]
    simp
  · decide

theorem prioTotals_eq_counts (bugs : List Bug) (a b c : Nat) :
    bugs.foldl prioStep (a, b, c) =
      (a + (bugs.filter (fun x => prioKey x == "p1")).length,
       b + (bugs.filter (fun x => prioKey x == "p2")).length,
       c + (bugs.filter (fun x => prioKey x == "p3")).length) := by
  induction bugs generalizing a b c with
  | nil => simp
  | cons x rest ih =>
      rw [List.foldl_cons]
      by_cases h1 : prioKey x = "p1"
      · have e2 : ¬prioKey x = "p2" := by rw [h1]; decide
        have e3 : ¬prioKey x = "p3" := by rw [h1]; decide
        rw [show prioStep (a, b, c) x = (a + 1, b, c) by simp [prioStep, h1]]
        rw [ih]
        simp [List.filter_cons, h1, e2, e3, Prod.ext_iff]
        omega
      · by_cases h2 : prioKey x = "p2"
        · have e3 : ¬prioKey x = "p3" := by rw [h2]; decide
          rw [show prioStep (a, b, c) x = (a, b + 1, c) by simp [prioStep, h1, h2]]
          rw [ih]
          simp [List.filter_cons, h1, h2, e3, Prod.ext_iff]
          omega
        · by_cases h3 : prioKey x = "p3"
          · rw [show prioStep (a, b, c) x = (a, b, c + 1) by simp [prioStep, h1, h2, h3]]
            rw [ih]
            simp [List.filter_cons, h1, h2, h3, Prod.ext_iff]
            omega
          · rw [show prioStep (a, b, c) x = (a, b, c) by simp [prioStep, h1, h2, h3]]
            rw [ih]
            simp [List.filter_cons, h1, h2, h3]

/-- C4: the priority emissions are always exactly the three rows p1,
p2, p3 (also when a count is zero), each counting the records whose
first two priority characters lower-cased equal that key; a record
whose key matches none of the three leaves the totals unchanged (no
error path exists). -/
theorem priority_bucket_counts (bugs : List Bug) :
    priorityEmissions bugs =
      [⟨Dim.priority, "p1", (bugs.filter (fun b => prioKey b == "p1")).length⟩,
       ⟨Dim.priority, "p2", (bugs.filter (fun b => prioKey b == "p2")).length⟩,
       ⟨Dim.priority, "p3", (bugs.filter (fun b => prioKey b == "p3")).length⟩] ∧
    (∀ b ∈ bugs, prioKey b ≠ "p1" → prioKey b ≠ "p2" → prioKey b ≠ "p3" →
      ∀ acc, prioStep acc b = acc) := by
  constructor
  · rw [priorityEmissions, prioTotals, prioTotals_eq_counts]
    simp
  · intro b _ h1 h2 h3 acc
    simp [prioStep, h1, h2, h3]

/-- A record whose priority key matches no bucket, for the C4 witness. -/
def demoBugX : Bug := ⟨"4", "NEW", "A", "alice", "X", "", []⟩

theorem priority_bucket_counts_witness :
    priorityEmissions demoBugs =
      [⟨Dim.priority, "p1", 2⟩, ⟨Dim.priority, "p2", 1⟩, ⟨Dim.priority, "p3", 0⟩] ∧
    prioStep (0, 0, 0) demoBugX = (0, 0, 0) := by
  constructor
  · rw [(priority_bucket_counts demoBugs).1]
    decide
  · exact (priority_bucket_counts [demoBugX]).2 demoBugX (by decide)
      (by decide) (by decide) (by decide) (0, 0, 0)

/-- C5: the open-load metric is computed on exactly the records whose
status differs from the exact case-sensitive string "RESOLVED" (a
lowercase "resolved" record stays in), and each assignee present in
that filtered subset yields exactly one emission carrying the size of
their sublist. -/
theorem open_assignee_counts (bugs : List Bug) :
    (∀ b ∈ open_bugs bugs, b.status ≠ "RESOLVED") ∧
    (∀ b ∈ bugs, b.status ≠ "RESOLVED" → b ∈ open_bugs bugs) ∧
    (∀ k n, Emission.mk Dim.assignee_open k n ∈ assigneeOpenEmissions bugs ↔
      (0 < n ∧ n = ((open_bugs bugs).filter (fun b => b.assigned_to == k)).length)) := by
  have hnodup : (keysOf (group_bugs_by_assignee (open_bugs bugs))).Nodup :=
    nodup_keysOf_groupFold _ _ _ (by simp [keysOf])
  have hbucket : ∀ k, bucketOf (group_bugs_by_assignee (open_bugs bugs)) k =
      (open_bugs bugs).filter (fun b => b.assigned_to == k) := by
    intro k
    rw [group_bugs_by_assignee, bucketOf_groupFold]
    simp [bucketOf]
  have hkey : ∀ k, hasKey (group_bugs_by_assignee (open_bugs bugs)) k =
      (open_bugs bugs).any (fun b => b.assigned_to == k) := by
    intro k
    rw [group_bugs_by_assignee, hasKey_groupFold]
    simp [hasKey]
  refine ⟨?_, ?_, ?_⟩
  · intro b hb
    have := (List.mem_filter.mp hb).2
    simpa using this
  · intro b hb hs
    exact List.mem_filter.mpr ⟨hb, by simpa using hs⟩
  · intro k n
    constructor
    · intro hm
      obtain ⟨⟨pk, pl⟩, hp, he⟩ := List.mem_map.mp hm
      injection he with hd h1 h2
      subst h1
      subst h2
      obtain ⟨hk1, hk2⟩ := (mem_iff_of_nodupKeys _ hnodup pk pl).mp hp
      rw [hbucket pk] at hk2
      constructor
      · rw [hkey pk] at hk1
        obtain ⟨x, hx, hpx⟩ := List.any_eq_true.mp hk1
        have hxm : x ∈ pl := hk2 ▸ List.mem_filter.mpr ⟨hx, hpx⟩
        exact List.length_pos.mpr (List.ne_nil_of_mem hxm)
      · rw [← hk2]
    · intro ⟨hpos, hn⟩
      have hFne : (open_bugs bugs).filter (fun b => b.assigned_to == k) ≠ [] := by
        intro h0
        rw [h0] at hn
        simp at hn
        omega
      have hany : (open_bugs bugs).any (fun b => b.assigned_to == k) = true := by
        obtain ⟨x, hx⟩ := List.exists_mem_of_ne_nil _ hFne
        obtain ⟨hx1, hx2⟩ := List.mem_filter.mp hx
        exact List.any_eq_true.mpr ⟨x, hx1, hx2⟩
      have hmem2 : (k, (open_bugs bugs).filter (fun b => b.assigned_to == k)) ∈
          group_bugs_by_assignee (open_bugs bugs) :=
        (mem_iff_of_nodupKeys _ hnodup _ _).mpr ⟨by rw [hkey k]; exact hany, hbucket k⟩
      refine List.mem_map.mpr ⟨_, hmem2, ?_⟩
      rw [hn]

/-- A record whose status is the lowercase "resolved", for the C5
witness: it must stay in the open subset. -/
def demoBugResolvedLower : Bug := ⟨"5", "resolved", "A", "carol", "P2", "", []⟩

theorem open_assignee_counts_witness :
    demoBugResolvedLower ∈ open_bugs [demoBug2, demoBugResolvedLower] :=
  (open_assignee_counts [demoBug2, demoBugResolvedLower]).2.1 demoBugResolvedLower
    (by decide) (by decide)

/-- C7: a priority shorter than two characters yields a bucket key
shorter than two characters, which is none of p1, p2, p3, so the
record leaves the priority totals unchanged; the computation is a
total function and cannot raise. -/
theorem short_priority_excluded (b : Bug) (h : b.priority.length < 2) :
    (prioKey b ≠ "p1" ∧ prioKey b ≠ "p2" ∧ prioKey b ≠ "p3") ∧
    ∀ acc, prioStep acc b = acc := by
  have hlen : (prioKey b).length < 2 := by
    have hd : b.priority.data.length < 2 := h
    simp only [prioKey, String.length]
    simp [List.length_take]
    omega
  have h1 : prioKey b ≠ "p1" := fun he => by rw [he] at hlen; exact absurd hlen (by decide)
  have h2 : prioKey b ≠ "p2" := fun he => by rw [he] at hlen; exact absurd hlen (by decide)
  have h3 : prioKey b ≠ "p3" := fun he => by rw [he] at hlen; exact absurd hlen (by decide)
  exact ⟨⟨h1, h2, h3⟩, fun acc => by simp [prioStep, h1, h2, h3]⟩

/-- A record with a one-character priority, for the C7 witness. -/
def demoBugShortPrio : Bug := ⟨"6", "NEW", "A", "alice", "P", "", []⟩

theorem short_priority_excluded_witness :
    prioStep (3, 4, 5) demoBugShortPrio = (3, 4, 5) :=
  (short_priority_excluded demoBugShortPrio (by decide)).2 (3, 4, 5)

theorem one_le_count_of_mem_groupMap (d : Dim) (g : List (String × List Bug)) (e : Emission)
    (hne : ∀ p ∈ g, p.2 ≠ [])
    (hm : e ∈ g.map (fun p => Emission.mk d p.1 p.2.length)) : 1 ≤ e.count := by
  obtain ⟨p, hp, he⟩ := List.mem_map.mp hm
  rw [← he]
  exact List.length_pos.mpr (hne p hp)

/-- C9: every emission of the four group-derived dimensions (status,
component, l3_status, assignee_open) carries a strictly positive
count, because a bucket is only ever created by appending a record. -/
theorem grouped_dimension_counts_positive (bugs : List Bug) (e : Emission)
    (hmem : e ∈ aggregateProduct bugs)
    (hdim : e.dim = Dim.status ∨ e.dim = Dim.component ∨ e.dim = Dim.l3_status ∨
      e.dim = Dim.assignee_open) :
    1 ≤ e.count := by
  have hne : ∀ (key : Bug → String) (l : List Bug),
      ∀ p ∈ groupFold key [] l, p.2 ≠ [] :=
    fun key l => nonempty_groupFold key l [] (by simp)
  rw [aggregateProduct] at hmem
  rcases List.mem_append.mp hmem with hmem | hmem
  · rcases List.mem_append.mp hmem with hmem | hmem
    · rcases List.mem_append.mp hmem with hmem | hmem
      · rcases List.mem_append.mp hmem with hmem | hmem
        · rcases List.mem_append.mp hmem with hmem | hmem
          · exact one_le_count_of_mem_groupMap Dim.status _ e
              (hne (fun b => b.status) bugs) hmem
          · exact one_le_count_of_mem_groupMap Dim.component _ e
              (hne (fun b => b.component) bugs) hmem
        · exact one_le_count_of_mem_groupMap Dim.l3_status _ e
            (hne (fun b => b.status) (bugzilla_l3s bugs)) hmem
      · rw [l3CaseEmissions] at hmem
        rcases List.mem_cons.mp hmem with hmem | hmem
        · rw [hmem] at hdim
          rcases hdim with h | h | h | h <;> simp at h
        · rcases List.mem_cons.mp hmem with hmem | hmem
          · rw [hmem] at hdim
            rcases hdim with h | h | h | h <;> simp at h
          · simp at hmem
    · rw [priorityEmissions] at hmem
      rcases List.mem_cons.mp hmem with hmem | hmem
      · rw [hmem] at hdim
        rcases hdim with h | h | h | h <;> simp at h
      · rcases List.mem_cons.mp hmem with hmem | hmem
        · rw [hmem] at hdim
          rcases hdim with h | h | h | h <;> simp at h
        · rcases List.mem_cons.mp hmem with hmem | hmem
          · rw [hmem] at hdim
            rcases hdim with h | h | h | h <;> simp at h
          · simp at hmem
  · exact one_le_count_of_mem_groupMap Dim.assignee_open _ e
      (hne (fun b => b.assigned_to) (open_bugs bugs)) hmem

theorem grouped_dimension_counts_positive_witness :
    1 ≤ (Emission.mk Dim.status "NEW" 2).count :=
  grouped_dimension_counts_positive demoBugs ⟨Dim.status, "NEW", 2⟩ (by decide)
    (Or.inl rfl)

/-- C10: has_needinfo is a total function (no error path); a flag
mapping without a "name" key reads as the empty string via the default
of `get`, which never equals "needinfo", and the result is true
exactly when some flag's name reads "needinfo". -/
theorem has_needinfo_total_default (b : Bug) :
    (has_needinfo b = true ↔ ∃ f ∈ b.flags, flagGet f "name" "" = "needinfo") ∧
    (∀ f ∈ b.flags, List.lookup "name" f = none → flagGet f "name" "" ≠ "needinfo") := by
  constructor
  · rw [has_needinfo, List.any_eq_true]
    constructor
    · intro ⟨f, hf, he⟩
      exact ⟨f, hf, by simpa using he⟩
    · intro ⟨f, hf, he⟩
      exact ⟨f, hf, by simpa using he⟩
  · intro f _ hl
    simp [flagGet, hl]

/-- A flag mapping without a "name" key and one naming "needinfo", for
the C10 witness. -/
def demoFlagOther : Flag := [("requestee", "x")]

def demoFlagNeedinfo : Flag := [("name", "needinfo")]

def demoBugFlags : Bug :=
  ⟨"7", "NEW", "A", "alice", "P1", "", [demoFlagOther, demoFlagNeedinfo]⟩

theorem has_needinfo_total_default_witness : has_needinfo demoBugFlags = true :=
  (has_needinfo_total_default demoBugFlags).1.mpr
    ⟨demoFlagNeedinfo, by decide, by decide⟩

/-- C8: the aggregation of the embedding is a pure, state-free
function of the record collection (the Python loop mutates only its
local dicts, never a record), so a second run on the same collection
is definitionally the same metric list, and two driver cycles that
fetch identical collections emit identical tagged rows. -/
theorem aggregation_deterministic (bugs : List Bug) (clock : Nat → Nat)
    (cycle : List (String × List Bug)) :
    aggregateProduct bugs = aggregateProduct bugs ∧
    (mainCycles clock [cycle, cycle]).getD 0 [] = (mainCycles clock [cycle, cycle]).getD 1 [] :=
  ⟨rfl, rfl⟩

/-- C1 is refuted by the source: `datetime.now()` runs exactly once at
main.py line 82, before the `while True` loop, so every later cycle
reuses the instant captured before the first cycle. With `clock i = i`
as the wall-clock instant at the start of cycle `i` and two
single-product cycles, every emission of the second cycle (a nonempty
list) is tagged with instant 0, the first cycle's start, and none with
the second cycle's own start instant 1, contradicting one fresh
capture per cycle. -/
theorem timestamp_not_fresh_per_cycle :
    ((mainCycles (fun i => i) [[("X", [])], [("X", [])]]).getD 1 []).all
        (fun e => e.timestamp == 0) = true ∧
    (mainCycles (fun i => i) [[("X", [])], [("X", [])]]).getD 1 [] ≠ [] ∧
    ((mainCycles (fun i => i) [[("X", [])], [("X", [])]]).getD 1 []).all
        (fun e => e.timestamp == 1) = false := by
  refine ⟨?_, ?_, ?_⟩ <;> decide

end Bgzfiltra
